import Mathlib

/-!
Verification of the post-processing hooks of the pooch data-retrieval library
(`src/pooch/processors.py`), as a shallow embedding in Lean 4.

The filesystem is modelled as a flat map from full path strings to byte
contents (`List Nat`), together with a list of directory paths.  Paths use
the POSIX separator and `os.path.join a b` is modelled as `a ++ "/" ++ b`.
Archives are modelled abstractly as association lists from member names to
byte contents, standing for the parsed view that `ZipFile` / `TarFile`
provide of the archive file.  Python exceptions are modelled by an error
type carried in `Except`; a call returns both the `Except` outcome and the
filesystem state at the moment of return or raise, so partial side effects
of failing calls are visible.
-/

set_option autoImplicit false

namespace Pooch

/-- Byte string contents of a file. -/
abbrev Bytes := List Nat

/-- Flat filesystem model: a set of directories and a map from full file
paths to contents.  `files` is an association list; the operations below
keep at most one entry per path. -/
structure FS where
  dirs : List String
  files : List (String × Bytes)
deriving DecidableEq, Repr

/-- Python exceptions raised by the processors, with the data the real
messages carry: `keyError` names the missing archive member,
`valueErrorExt` carries the unrecognized extension and the list of valid
extensions, `valueErrorMethod` carries the invalid method name and the
list of valid method names. -/
inductive PyErr where
  | notImplementedError : PyErr
  | keyError : String → PyErr
  | valueErrorExt : String → List String → PyErr
  | valueErrorMethod : String → List String → PyErr
  | ioError : PyErr
deriving DecidableEq, Repr

/-- The `action` argument passed by `Pooch.fetch`. -/
inductive Action where
  | download
  | update
  | fetch
deriving DecidableEq, Repr

/-- Model of `os.path.join` on POSIX. -/
def pjoin (a b : String) : String := a ++ "/" ++ b

/-- True when `p` is a path strictly inside directory `dir`. -/
def underDir (dir : String) (p : String) : Bool :=
  (dir ++ "/").data.isPrefixOf p.data

/-- True when a regular file exists at `p`. -/
def FS.fileExists (fs : FS) (p : String) : Bool :=
  fs.files.any (fun kv => kv.1 == p)

/-- Model of `os.path.exists`: true for a directory or a file. -/
def FS.pathExists (fs : FS) (p : String) : Bool :=
  fs.dirs.contains p || fs.fileExists p

/-- Model of `os.makedirs`. -/
def FS.makedirs (fs : FS) (p : String) : FS :=
  { fs with dirs := p :: fs.dirs }

/-- Model of `open(p, "wb")` / `open(p, "w+b")` followed by writing `c`:
creates the file or truncates an existing one, leaving one entry for `p`. -/
def FS.writeFile (fs : FS) (p : String) (c : Bytes) : FS :=
  { fs with files := fs.files.filter (fun kv => !(kv.1 == p)) ++ [(p, c)] }

/-- Contents of the file at `p`, if present. -/
def FS.readFile (fs : FS) (p : String) : Option Bytes :=
  fs.files.lookup p

/-- Model of the `os.walk` enumeration in `ExtractorProcessor.__call__`:
the full paths of all regular files below `dir`, in filesystem order. -/
def walkFiles (fs : FS) (dir : String) : List String :=
  (fs.files.filter (fun kv => underDir dir kv.1)).map (fun kv => kv.1)

/-- A variant-specific `_extract_file` step: given the archive path and the
destination directory, transform the filesystem or raise. -/
abbrev ExtractFn := String → String → FS → Except PyErr Unit × FS

/-- Result of one `ExtractorProcessor.__call__`: the returned file list or
the raised exception, the filesystem afterwards, and whether the
variant-specific `_extract_file` unpack step was invoked. -/
structure CallResult where
  result : Except PyErr (List String)
  fs : FS
  unpacked : Bool
deriving Repr

/-- Model of `ExtractorProcessor.__call__` (processors.py lines 39-80),
parametric in the subclass `suffix` attribute and `_extract_file` method.
Raises `NotImplementedError` when `suffix` is `None`; otherwise extracts
into `fname + suffix` when the action is `update` or `download` or the
directory does not exist, creating the directory first when missing, and
finally enumerates all files below the directory. -/
def extractorCall (suffix : Option String) (extractFile : ExtractFn)
    (fname : String) (action : Action) (fs : FS) : CallResult :=
  match suffix with
  | none => ⟨.error .notImplementedError, fs, false⟩
  | some suf =>
    let extractDir := fname ++ suf
    if action = .update ∨ action = .download ∨ fs.pathExists extractDir = false then
      let fs1 := if fs.pathExists extractDir then fs else fs.makedirs extractDir
      match extractFile fname extractDir fs1 with
      | (.error e, fs2) => ⟨.error e, fs2, true⟩
      | (.ok _, fs2) => ⟨.ok (walkFiles fs2 extractDir), fs2, true⟩
    else
      ⟨.ok (walkFiles fs extractDir), fs, false⟩

/-- An archive's parsed contents: member names mapped to byte contents,
the view that `ZipFile` / `TarFile` give of the archive file. -/
abbrev Archive := List (String × Bytes)

/-- Model of `ZipFile.extractall` / `TarFile.extractall`: write every
member of the archive into the destination directory. -/
def extractAll (archive : Archive) (extractDir : String) (fs : FS) : FS :=
  archive.foldl (fun acc kv => acc.writeFile (pjoin extractDir kv.1) kv.2) fs

/-- Model of the member loop of `Unzip._extract_file` (processors.py
lines 122-132): for each requested member in order, `zip_file.open(member)`
raises `KeyError` when the member is absent from the archive, aborting the
loop; otherwise the member's bytes are written verbatim to
`extract_dir/member`. -/
def zipExtractMembers (archive : Archive) (extractDir : String) :
    List String → FS → Except PyErr Unit × FS
  | [], fs => (.ok (), fs)
  | m :: rest, fs =>
    match archive.lookup m with
    | none => (.error (.keyError m), fs)
    | some content =>
      zipExtractMembers archive extractDir rest
        (fs.writeFile (pjoin extractDir m) content)

/-- Model of `Unzip._extract_file` (processors.py lines 111-132). -/
def unzipExtractFile (members : Option (List String)) (archive : Archive) : ExtractFn :=
  fun _fname extractDir fs =>
    match members with
    | none => (.ok (), extractAll archive extractDir fs)
    | some ms => zipExtractMembers archive extractDir ms fs

/-- Handle events on the stream returned by `tar_file.extractfile`. -/
inductive Ev where
  | openH (member : String)
  | closeH (member : String)
deriving DecidableEq, Repr

/-- Model of the member loop of `Untar._extract_file` (processors.py
lines 167-181), instrumented with a trace of open/close events on the
member stream handle, and with a fault parameter `writeFails` modelling an
IO failure while writing a member's bytes to the output file.
`tar_file.extractfile` raises `KeyError` for an absent member before any
handle is obtained; on a write fault the output file has been opened and
truncated, the handle close in the `finally` block still runs, and the
exception propagates, aborting the remaining members. -/
def tarExtractMembers (archive : Archive) (extractDir : String)
    (writeFails : String → Bool) :
    List String → FS → (Except PyErr Unit × FS) × List Ev
  | [], fs => ((.ok (), fs), [])
  | m :: rest, fs =>
    match archive.lookup m with
    | none => ((.error (.keyError m), fs), [])
    | some content =>
      if writeFails m then
        ((.error .ioError, fs.writeFile (pjoin extractDir m) []),
          [.openH m, .closeH m])
      else
        let r := tarExtractMembers archive extractDir writeFails rest
          (fs.writeFile (pjoin extractDir m) content)
        (r.1, .openH m :: .closeH m :: r.2)

/-- Model of `Untar._extract_file` (processors.py lines 156-181), in the
fault-free execution. -/
def untarExtractFile (members : Option (List String)) (archive : Archive) : ExtractFn :=
  fun _fname extractDir fs =>
    match members with
    | none => (.ok (), extractAll archive extractDir fs)
    | some ms => (tarExtractMembers archive extractDir (fun _ => false) ms fs).1

/-- A trace in which every handle open is immediately followed by the
close of that same handle. -/
def paired : List Ev → Bool
  | [] => true
  | .openH m :: .closeH m2 :: rest => m == m2 && paired rest
  | _ => false

/-- The net filesystem effect of extracting the members `ms` in order:
each member's bytes written (in list order) to `extractDir/member`. -/
def writeMembers (archive : Archive) (extractDir : String)
    (ms : List String) (fs : FS) : FS :=
  ms.foldl
    (fun acc m => acc.writeFile (pjoin extractDir m) ((archive.lookup m).getD [])) fs

/-- Index of the last occurrence of `c`, if any. -/
def rfind (c : Char) : List Char → Option Nat
  | [] => none
  | x :: xs =>
    match rfind c xs with
    | some i => some (i + 1)
    | none => if x = c then some 0 else none

/-- Model of `os.path.splitext` on POSIX, following CPython: the
extension starts at the last dot, provided that dot comes after the last
path separator and at least one earlier character of the base name is not
a dot; otherwise the extension is empty. -/
def splitext (p : String) : String × String :=
  let cs := p.data
  match rfind '.' cs with
  | none => (p, "")
  | some di =>
    let start : Option Nat :=
      match rfind '/' cs with
      | none => some 0
      | some s => if s < di then some (s + 1) else none
    match start with
    | none => (p, "")
    | some si =>
      if ((cs.drop si).take (di - si)).any (fun ch => !(ch == '.')) then
        (⟨cs.take di⟩, ⟨cs.drop di⟩)
      else (p, "")

/-- The Python compression modules used by `Decompress`: `lzma`, `gzip`
and `bz2`. -/
inductive CModule where
  | lzma
  | gzip
  | bz2
deriving DecidableEq, Repr

/-- The `Decompress.modules` table (processors.py line 209). -/
def modules : List (String × CModule) :=
  [("lzma", .lzma), ("xz", .lzma), ("gzip", .gzip), ("bzip2", .bz2)]

/-- The `Decompress` processor: `__init__` (processors.py lines 211-212)
only stores the `method` string, with no validation. -/
structure Decompress where
  method : String
deriving DecidableEq, Repr

/-- Model of `Decompress._compression_module` (processors.py lines
252-277): when `method` is `"auto"`, map the input path's extension
through the `valid_methods` table, raising `ValueError` with the
offending extension and the recognized extensions on a miss; then require
the resolved method to be a key of `modules`, raising `ValueError` with
the invalid name and the valid names otherwise. -/
def compressionModule (d : Decompress) (fname : String) : Except PyErr CModule :=
  let lookupModules : String → Except PyErr CModule := fun method =>
    match modules.lookup method with
    | none => .error (.valueErrorMethod method (modules.map (fun kv => kv.1)))
    | some md => .ok md
  if d.method = "auto" then
    let ext := (splitext fname).2
    let validMethods := [(".xz", "lzma"), (".gz", "gzip"), (".bz2", "bzip2")]
    match validMethods.lookup ext with
    | none => .error (.valueErrorExt ext (validMethods.map (fun kv => kv.1)))
    | some m => lookupModules m
  else lookupModules d.method

/-- Buffer size used by `shutil.copyfileobj` on this platform. -/
def copyBufsize : Nat := 65536

/-- Model of `shutil.copyfileobj`: copy the stream across in chunks of
`copyBufsize` bytes until it is exhausted. -/
def copyfileobj (data : Bytes) : Bytes :=
  match data with
  | [] => []
  | x :: xs => (x :: xs).take copyBufsize ++ copyfileobj ((x :: xs).drop copyBufsize)
termination_by data.length
decreasing_by
  simp [copyBufsize]
  omega

/-- Model of `Decompress.__call__` (processors.py lines 214-250),
parametric in the decompression semantics `mopen`, which maps a module
and the compressed bytes of the input file to the decompressed byte
stream (standing for `module.open(fname)` plus reading).  The output path
is `fname + ".decomp"`; the body runs when the action is `download` or
`update` or the output does not exist, and then resolves the compression
module, opens the output with mode `"w+b"` (creating the file or
truncating an existing one), opens the compressed input (an IO error if
the input file is missing), and copies the stream across in chunks. -/
def decompressCall (d : Decompress) (mopen : CModule → Bytes → Bytes)
    (fname : String) (action : Action) (fs : FS) : Except PyErr String × FS :=
  let decompressed := fname ++ ".decomp"
  if action = .update ∨ action = .download ∨ fs.pathExists decompressed = false then
    match compressionModule d fname with
    | .error e => (.error e, fs)
    | .ok md =>
      let fs1 := fs.writeFile decompressed []
      match fs1.readFile fname with
      | none => (.error .ioError, fs1)
      | some comp =>
        (.ok decompressed, fs1.writeFile decompressed (copyfileobj (mopen md comp)))
  else (.ok decompressed, fs)

end Pooch

namespace Pooch

/-- Helper: a `fetch` call on an existing output directory takes the
cache-hit branch of `ExtractorProcessor.__call__`. -/
theorem extractorCall_fetch_hit (suf : String) (extractFile : ExtractFn)
    (fname : String) (fs : FS) (hex : fs.pathExists (fname ++ suf) = true) :
    extractorCall (some suf) extractFile fname .fetch fs =
      ⟨.ok (walkFiles fs (fname ++ suf)), fs, false⟩ := by
  simp only [extractorCall]
  rw [if_neg (by simp [hex])]

/-- Helper: a call with the refresh condition satisfied runs the unpack
step on the (possibly just created) output directory. -/
theorem extractorCall_unpack (suf : String) (extractFile : ExtractFn)
    (fname : String) (action : Action) (fs : FS)
    (hcond : action = .update ∨ action = .download ∨
      fs.pathExists (fname ++ suf) = false) :
    extractorCall (some suf) extractFile fname action fs =
      match extractFile fname (fname ++ suf)
        (if fs.pathExists (fname ++ suf) = true then fs
          else fs.makedirs (fname ++ suf)) with
      | (.error e, fs2) => ⟨.error e, fs2, true⟩
      | (.ok _, fs2) => ⟨.ok (walkFiles fs2 (fname ++ suf)), fs2, true⟩ := by
  simp only [extractorCall]
  rw [if_pos hcond]

/-- C1: the variant-specific unpack step runs exactly when the action is
`download` or `update` or the output directory `fname ++ suffix` does not
yet exist; for action `fetch` with the directory present, no unpack runs,
the filesystem is untouched, and the call just re-enumerates the existing
contents of the directory. -/
theorem extractor_refresh_policy (suf : String) (extractFile : ExtractFn)
    (fname : String) (action : Action) (fs : FS) :
    ((extractorCall (some suf) extractFile fname action fs).unpacked = true ↔
      (action = .download ∨ action = .update ∨ fs.pathExists (fname ++ suf) = false)) ∧
    (action = .fetch → fs.pathExists (fname ++ suf) = true →
      extractorCall (some suf) extractFile fname action fs =
        ⟨.ok (walkFiles fs (fname ++ suf)), fs, false⟩) := by
  constructor
  · simp only [extractorCall]
    by_cases h : action = .update ∨ action = .download ∨ fs.pathExists (fname ++ suf) = false
    · rw [if_pos h]
      rcases hx : extractFile fname (fname ++ suf)
          (if fs.pathExists (fname ++ suf) then fs else fs.makedirs (fname ++ suf)) with ⟨r, fs2⟩
      cases r <;> simp [hx] <;> tauto
    · rw [if_neg h]
      simp only []
      constructor
      · intro hfalse; exact absurd hfalse (by simp)
      · intro hcond; exact absurd (by tauto) h
  · intro ha hex
    subst ha
    exact extractorCall_fetch_hit suf extractFile fname fs hex

/-- Witness for C1: a concrete `fetch` call on an existing output
directory takes the no-unpack branch. -/
theorem extractor_refresh_policy_witness :
    extractorCall (some ".unzip") (fun _ _ fs => (.ok (), fs)) "data.zip" .fetch
        ⟨["data.zip.unzip"], [("data.zip.unzip/a.txt", [1, 2])]⟩ =
      ⟨.ok (walkFiles ⟨["data.zip.unzip"], [("data.zip.unzip/a.txt", [1, 2])]⟩ "data.zip.unzip"),
        ⟨["data.zip.unzip"], [("data.zip.unzip/a.txt", [1, 2])]⟩, false⟩ :=
  (extractor_refresh_policy ".unzip" (fun _ _ fs => (.ok (), fs)) "data.zip" .fetch
    ⟨["data.zip.unzip"], [("data.zip.unzip/a.txt", [1, 2])]⟩).2 rfl (by decide)

/-- C2: on an already-extracted archive, a `fetch` call leaves the
filesystem unchanged and performs no unpack, and a second `fetch` call
returns exactly the same result. -/
theorem extractor_fetch_idempotent (suf : String) (extractFile : ExtractFn)
    (fname : String) (fs : FS)
    (hex : fs.pathExists (fname ++ suf) = true) :
    (extractorCall (some suf) extractFile fname .fetch fs).fs = fs ∧
    (extractorCall (some suf) extractFile fname .fetch fs).unpacked = false ∧
    extractorCall (some suf) extractFile fname .fetch
        (extractorCall (some suf) extractFile fname .fetch fs).fs =
      extractorCall (some suf) extractFile fname .fetch fs := by
  have h := extractorCall_fetch_hit suf extractFile fname fs hex
  rw [h]
  exact ⟨rfl, rfl, h⟩

/-- Witness for C2: concrete repeated `fetch` calls on an extracted
archive coincide. -/
theorem extractor_fetch_idempotent_witness :
    (extractorCall (some ".untar") (fun _ _ fs => (.ok (), fs)) "d.tar" .fetch
        ⟨["d.tar.untar"], [("d.tar.untar/x.csv", [7])]⟩).fs =
      ⟨["d.tar.untar"], [("d.tar.untar/x.csv", [7])]⟩ ∧
    (extractorCall (some ".untar") (fun _ _ fs => (.ok (), fs)) "d.tar" .fetch
        ⟨["d.tar.untar"], [("d.tar.untar/x.csv", [7])]⟩).unpacked = false ∧
    extractorCall (some ".untar") (fun _ _ fs => (.ok (), fs)) "d.tar" .fetch
        (extractorCall (some ".untar") (fun _ _ fs => (.ok (), fs)) "d.tar" .fetch
          ⟨["d.tar.untar"], [("d.tar.untar/x.csv", [7])]⟩).fs =
      extractorCall (some ".untar") (fun _ _ fs => (.ok (), fs)) "d.tar" .fetch
        ⟨["d.tar.untar"], [("d.tar.untar/x.csv", [7])]⟩ :=
  extractor_fetch_idempotent ".untar" (fun _ _ fs => (.ok (), fs)) "d.tar"
    ⟨["d.tar.untar"], [("d.tar.untar/x.csv", [7])]⟩ (by decide)

/-- C7: calling a processor whose variant defines no suffix raises
`NotImplementedError` immediately, with the filesystem untouched and the
unpack step never invoked. -/
theorem missing_suffix_config_error (extractFile : ExtractFn)
    (fname : String) (action : Action) (fs : FS) :
    extractorCall none extractFile fname action fs =
      ⟨.error .notImplementedError, fs, false⟩ := rfl

/-- Helper: `pjoin dir` is injective in the member name. -/
theorem pjoin_right_inj (dir : String) {a b : String}
    (h : pjoin dir a = pjoin dir b) : a = b := by
  have hd : (dir ++ "/").data ++ a.data = (dir ++ "/").data ++ b.data := by
    have := congrArg String.data h
    simpa [pjoin, String.data_append] using this
  exact String.ext (List.append_cancel_left hd)

/-- Helper: a joined path lies under its directory. -/
theorem underDir_pjoin (dir m : String) : underDir dir (pjoin dir m) = true := by
  have : (dir ++ "/").data <+: (pjoin dir m).data := by
    simp [pjoin, String.data_append]
  simpa [underDir, List.isPrefixOf_iff_prefix] using this

/-- Helper: file existence expressed through membership. -/
theorem fileExists_iff (fs : FS) (q : String) :
    fs.fileExists q = true ↔ ∃ kv ∈ fs.files, kv.1 = q := by
  simp [FS.fileExists, List.any_eq_true]

/-- Helper: file existence after a write. -/
theorem fileExists_writeFile (fs : FS) (p : String) (c : Bytes) (q : String) :
    (fs.writeFile p c).fileExists q = true ↔ q = p ∨ fs.fileExists q = true := by
  by_cases hqp : q = p
  · subst hqp
    constructor
    · intro _; exact Or.inl rfl
    · intro _
      rw [fileExists_iff]
      exact ⟨(q, c), by simp [FS.writeFile], rfl⟩
  · rw [fileExists_iff, fileExists_iff]
    constructor
    · rintro ⟨kv, hkv, hq⟩
      simp only [FS.writeFile, List.mem_append, List.mem_filter,
        List.mem_singleton] at hkv
      rcases hkv with ⟨hmem, _⟩ | hkv
      · exact Or.inr ⟨kv, hmem, hq⟩
      · subst hkv
        exact absurd hq.symm hqp
    · rintro (rfl | ⟨kv, hkv, hq⟩)
      · exact absurd rfl hqp
      · refine ⟨kv, ?_, hq⟩
        simp only [FS.writeFile, List.mem_append, List.mem_filter]
        exact Or.inl ⟨hkv, by simp [hq, hqp]⟩

/-- Helper: writes preserve the set of directories. -/
theorem dirs_writeFile (fs : FS) (p : String) (c : Bytes) :
    (fs.writeFile p c).dirs = fs.dirs := rfl

/-- Helper: writing a path that is not yet a file just appends the entry. -/
theorem files_writeFile_fresh (fs : FS) (p : String) (c : Bytes)
    (h : fs.fileExists p = false) :
    (fs.writeFile p c).files = fs.files ++ [(p, c)] := by
  simp only [FS.writeFile]
  congr 1
  apply List.filter_eq_self.mpr
  intro kv hkv
  simp only [FS.fileExists, List.any_eq_false] at h
  simpa using h kv hkv

/-- Helper: a lookup misses when no key matches. -/
theorem lookup_eq_none_of_keys_ne {β : Type} (l : List (String × β)) (p : String)
    (h : ∀ kv ∈ l, kv.1 ≠ p) : l.lookup p = none := by
  induction l with
  | nil => rfl
  | cons kv rest ih =>
    obtain ⟨k, b⟩ := kv
    have hk : (p == k) = false := by
      refine beq_eq_false_iff_ne.mpr fun hpq => ?_
      exact (h (k, b) (List.mem_cons_self _ rest)) hpq.symm
    simp only [List.lookup, hk]
    exact ih fun x hx => h x (List.mem_cons_of_mem _ hx)

/-- Helper: unfolding `writeMembers` on a cons cell. -/
theorem writeMembers_cons (archive : Archive) (dir m : String)
    (rest : List String) (fs : FS) :
    writeMembers archive dir (m :: rest) fs =
      writeMembers archive dir rest
        (fs.writeFile (pjoin dir m) ((archive.lookup m).getD [])) := rfl

/-- Helper: `writeMembers` leaves the directory set unchanged. -/
theorem dirs_writeMembers (archive : Archive) (dir : String) (ms : List String) :
    ∀ fs : FS, (writeMembers archive dir ms fs).dirs = fs.dirs := by
  induction ms with
  | nil => intro fs; rfl
  | cons m rest ih =>
    intro fs
    rw [writeMembers_cons, ih]
    rfl

/-- Helper: effect of `writeMembers` on the file list when none of the
target paths exists yet. -/
theorem files_writeMembers (archive : Archive) (dir : String) (ms : List String)
    (hnodup : ms.Nodup) :
    ∀ fs : FS, (∀ m ∈ ms, fs.fileExists (pjoin dir m) = false) →
    (writeMembers archive dir ms fs).files =
      fs.files ++ ms.map (fun m => (pjoin dir m, (archive.lookup m).getD [])) := by
  induction ms with
  | nil =>
    intro fs _
    simp [writeMembers]
  | cons m rest ih =>
    intro fs hfresh
    rw [writeMembers_cons]
    have hfm : fs.fileExists (pjoin dir m) = false := hfresh m (List.mem_cons_self _ _)
    have hnd := List.nodup_cons.mp hnodup
    have hrest : ∀ m2 ∈ rest,
        (fs.writeFile (pjoin dir m) ((archive.lookup m).getD [])).fileExists
          (pjoin dir m2) = false := by
      intro m2 hm2
      rw [← Bool.not_eq_true]
      intro hcon
      rcases (fileExists_writeFile _ _ _ _).mp hcon with heq | hex
      · exact hnd.1 (pjoin_right_inj dir heq ▸ hm2)
      · rw [hfresh m2 (List.mem_cons_of_mem _ hm2)] at hex
        exact Bool.false_ne_true hex
    rw [ih hnd.2 _ hrest, files_writeFile_fresh fs _ _ hfm]
    simp

/-- Helper: member extraction with all members present succeeds with the
net effect of writing each member in order. -/
theorem zipExtractMembers_ok (archive : Archive) (dir : String) (ms : List String) :
    ∀ fs : FS, (∀ m ∈ ms, (archive.lookup m).isSome = true) →
    zipExtractMembers archive dir ms fs = (.ok (), writeMembers archive dir ms fs) := by
  induction ms with
  | nil => intro fs _; rfl
  | cons m rest ih =>
    intro fs hall
    obtain ⟨c, hc⟩ := Option.isSome_iff_exists.mp (hall m (List.mem_cons_self _ _))
    simp only [zipExtractMembers, hc, writeMembers_cons, Option.getD_some]
    exact ih _ fun x hx => hall x (List.mem_cons_of_mem _ hx)

/-- Helper: a present prefix of the member list is written first. -/
theorem zipExtractMembers_append (archive : Archive) (dir : String)
    (pre rest : List String) :
    ∀ fs : FS, (∀ m ∈ pre, (archive.lookup m).isSome = true) →
    zipExtractMembers archive dir (pre ++ rest) fs =
      zipExtractMembers archive dir rest (writeMembers archive dir pre fs) := by
  induction pre with
  | nil => intro fs _; rfl
  | cons m pms ih =>
    intro fs hall
    obtain ⟨c, hc⟩ := Option.isSome_iff_exists.mp (hall m (List.mem_cons_self _ _))
    simp only [List.cons_append, zipExtractMembers, hc, writeMembers_cons,
      Option.getD_some]
    exact ih _ fun x hx => hall x (List.mem_cons_of_mem _ hx)

/-- Helper: fault-free tar member extraction computes the same outcome as
zip member extraction. -/
theorem tarExtractMembers_eq_zip (archive : Archive) (dir : String)
    (ms : List String) :
    ∀ fs : FS, (tarExtractMembers archive dir (fun _ => false) ms fs).1 =
      zipExtractMembers archive dir ms fs := by
  induction ms with
  | nil => intro fs; rfl
  | cons m rest ih =>
    intro fs
    simp only [tarExtractMembers, zipExtractMembers]
    cases archive.lookup m with
    | none => rfl
    | some content => simpa using ih _

/-- Helper: looking up a written member path among the mapped entries. -/
theorem lookup_map_pjoin (dir : String) (g : String → Bytes) (ms : List String)
    (hnodup : ms.Nodup) (m : String) (hm : m ∈ ms) :
    (ms.map (fun x => (pjoin dir x, g x))).lookup (pjoin dir m) = some (g m) := by
  induction ms with
  | nil => cases hm
  | cons x rest ih =>
    rcases List.mem_cons.mp hm with rfl | hm2
    · simp [List.lookup]
    · have hx : (pjoin dir m == pjoin dir x) = false := by
        refine beq_eq_false_iff_ne.mpr fun hcon => ?_
        rw [pjoin_right_inj dir hcon] at hm2
        exact (List.nodup_cons.mp hnodup).1 hm2
      simp only [List.map_cons, List.lookup, hx]
      exact ih (List.nodup_cons.mp hnodup).2 hm2

/-- Helper: an empty directory has no file at any joined path. -/
theorem fresh_of_empty (dir : String) (fs : FS)
    (hempty : fs.files.filter (fun kv => underDir dir kv.1) = []) :
    ∀ m, fs.fileExists (pjoin dir m) = false := by
  intro m
  rw [← Bool.not_eq_true, fileExists_iff]
  rintro ⟨kv, hkv, hq⟩
  have hmem : kv ∈ fs.files.filter (fun kv => underDir dir kv.1) :=
    List.mem_filter.mpr ⟨hkv, by rw [hq]; exact underDir_pjoin dir m⟩
  rw [hempty] at hmem
  cases hmem

/-- Helper: contents of a written member file are the archive's bytes. -/
theorem readFile_writeMembers (archive : Archive) (dir : String) (ms : List String)
    (fs : FS) (hnodup : ms.Nodup)
    (hfresh : ∀ m2, fs.fileExists (pjoin dir m2) = false)
    (m : String) (hm : m ∈ ms) (hsome : (archive.lookup m).isSome = true) :
    (writeMembers archive dir ms fs).readFile (pjoin dir m) = archive.lookup m := by
  rw [FS.readFile, files_writeMembers archive dir ms hnodup fs (fun x _ => hfresh x),
    List.lookup_append]
  rw [lookup_eq_none_of_keys_ne _ _ ?_]
  · rw [lookup_map_pjoin dir _ ms hnodup m hm]
    obtain ⟨c, hc⟩ := Option.isSome_iff_exists.mp hsome
    simp [hc]
  · intro kv hkv hcon
    have hex := (fileExists_iff fs (pjoin dir m)).mpr ⟨kv, hkv, hcon⟩
    rw [hfresh m] at hex
    exact Bool.false_ne_true hex

/-- Helper: after extraction into a fresh directory, exactly the listed
members exist. -/
theorem fileExists_writeMembers (archive : Archive) (dir : String)
    (ms : List String) (fs : FS) (hnodup : ms.Nodup)
    (hfresh : ∀ m2, fs.fileExists (pjoin dir m2) = false) (name : String) :
    (writeMembers archive dir ms fs).fileExists (pjoin dir name) = true ↔
      name ∈ ms := by
  rw [fileExists_iff, files_writeMembers archive dir ms hnodup fs (fun x _ => hfresh x)]
  constructor
  · rintro ⟨kv, hkv, hq⟩
    rcases List.mem_append.mp hkv with hin | hin
    · have hex := (fileExists_iff fs _).mpr ⟨kv, hin, hq⟩
      rw [hfresh name] at hex
      exact absurd hex Bool.false_ne_true
    · obtain ⟨x, hx, hkx⟩ := List.mem_map.mp hin
      have hxe : pjoin dir x = pjoin dir name := by rw [← hkx] at hq; exact hq
      exact pjoin_right_inj dir hxe ▸ hx
  · intro hname
    exact ⟨(pjoin dir name, (archive.lookup name).getD []),
      List.mem_append.mpr (Or.inr (List.mem_map.mpr ⟨name, hname, rfl⟩)), rfl⟩

/-- Helper: files under the directory after extraction are exactly the
member entries, when the directory was empty beforehand. -/
theorem filter_writeMembers (archive : Archive) (dir : String) (ms : List String)
    (fs : FS) (hnodup : ms.Nodup)
    (hempty : fs.files.filter (fun kv => underDir dir kv.1) = []) :
    (writeMembers archive dir ms fs).files.filter (fun kv => underDir dir kv.1) =
      ms.map (fun m => (pjoin dir m, (archive.lookup m).getD [])) := by
  rw [files_writeMembers archive dir ms hnodup fs
    (fun x _ => fresh_of_empty dir fs hempty x), List.filter_append, hempty,
    List.nil_append]
  apply List.filter_eq_self.mpr
  intro kv hkv
  obtain ⟨x, _, hkx⟩ := List.mem_map.mp hkv
  rw [← hkx]
  exact underDir_pjoin dir x

/-- Helper: a write never removes an existing path. -/
theorem pathExists_writeFile_mono (fs : FS) (p : String) (c : Bytes) (q : String)
    (h : fs.pathExists q = true) : (fs.writeFile p c).pathExists q = true := by
  simp only [FS.pathExists, Bool.or_eq_true] at h ⊢
  rcases h with h | h
  · exact Or.inl h
  · exact Or.inr ((fileExists_writeFile fs p c q).mpr (Or.inr h))

/-- Helper: member writes never remove an existing path. -/
theorem pathExists_writeMembers_mono (archive : Archive) (dir : String)
    (ms : List String) (q : String) :
    ∀ fs : FS, fs.pathExists q = true →
    (writeMembers archive dir ms fs).pathExists q = true := by
  induction ms with
  | nil => intro fs h; exact h
  | cons m rest ih =>
    intro fs h
    rw [writeMembers_cons]
    exact ih _ (pathExists_writeFile_mono fs _ _ q h)

/-- C5: for member-restricted extraction into a fresh output directory:
each named member's bytes are written verbatim to `extractDir/member`,
exactly the named members appear in the output directory and no other
archive entries do, and a member absent from the archive raises a
`KeyError` naming it, aborting extraction of the remaining members; the
tar variant computes the same outcome as the zip variant. -/
theorem member_restricted_extraction (archive : Archive) (ms : List String)
    (extractDir : String) (fs : FS) (hnodup : ms.Nodup)
    (hempty : fs.files.filter (fun kv => underDir extractDir kv.1) = []) :
    ((∀ m ∈ ms, (archive.lookup m).isSome = true) →
      zipExtractMembers archive extractDir ms fs =
        (.ok (), writeMembers archive extractDir ms fs) ∧
      (∀ m ∈ ms, (writeMembers archive extractDir ms fs).readFile
        (pjoin extractDir m) = archive.lookup m) ∧
      (writeMembers archive extractDir ms fs).files.filter
          (fun kv => underDir extractDir kv.1) =
        ms.map (fun m => (pjoin extractDir m, (archive.lookup m).getD [])) ∧
      (∀ name, (writeMembers archive extractDir ms fs).fileExists
          (pjoin extractDir name) = true ↔ name ∈ ms)) ∧
    (∀ pre mm post, ms = pre ++ mm :: post →
      (∀ m ∈ pre, (archive.lookup m).isSome = true) →
      archive.lookup mm = none →
      zipExtractMembers archive extractDir ms fs =
        (.error (.keyError mm), writeMembers archive extractDir pre fs) ∧
      (∀ name, (writeMembers archive extractDir pre fs).fileExists
          (pjoin extractDir name) = true ↔ name ∈ pre)) ∧
    (tarExtractMembers archive extractDir (fun _ => false) ms fs).1 =
      zipExtractMembers archive extractDir ms fs := by
  have hfresh := fresh_of_empty extractDir fs hempty
  refine ⟨?_, ?_, tarExtractMembers_eq_zip archive extractDir ms fs⟩
  · intro hall
    exact ⟨zipExtractMembers_ok archive extractDir ms fs hall,
      fun m hm =>
        readFile_writeMembers archive extractDir ms fs hnodup hfresh m hm (hall m hm),
      filter_writeMembers archive extractDir ms fs hnodup hempty,
      fun name => fileExists_writeMembers archive extractDir ms fs hnodup hfresh name⟩
  · intro pre mm post hsplit hpre hmm
    subst hsplit
    have hprend : pre.Nodup := (List.nodup_append.mp hnodup).1
    constructor
    · rw [zipExtractMembers_append archive extractDir pre (mm :: post) fs hpre]
      simp only [zipExtractMembers, hmm]
    · exact fun name =>
        fileExists_writeMembers archive extractDir pre fs hprend hfresh name

/-- Witness for C5: extracting only `a.txt` from an archive holding
`a.txt` and `b.txt` succeeds, and `b.txt` does not appear in the output
directory. -/
theorem member_restricted_extraction_witness :
    zipExtractMembers [("a.txt", [1, 2]), ("b.txt", [3])] "d.zip.unzip" ["a.txt"]
        ⟨["d.zip.unzip"], []⟩ =
      (.ok (), writeMembers [("a.txt", [1, 2]), ("b.txt", [3])] "d.zip.unzip"
        ["a.txt"] ⟨["d.zip.unzip"], []⟩) ∧
    ((writeMembers [("a.txt", [1, 2]), ("b.txt", [3])] "d.zip.unzip" ["a.txt"]
        ⟨["d.zip.unzip"], []⟩).fileExists (pjoin "d.zip.unzip" "b.txt") = true ↔
      "b.txt" ∈ ["a.txt"]) :=
  ⟨((member_restricted_extraction [("a.txt", [1, 2]), ("b.txt", [3])] ["a.txt"]
      "d.zip.unzip" ⟨["d.zip.unzip"], []⟩ (by decide) (by decide)).1 (by decide)).1,
    ((member_restricted_extraction [("a.txt", [1, 2]), ("b.txt", [3])] ["a.txt"]
      "d.zip.unzip" ⟨["d.zip.unzip"], []⟩ (by decide) (by decide)).1
        (by decide)).2.2.2 "b.txt"⟩

/-- C9: extracting member subset `A` first (here on a fresh download),
then calling again with a different subset `B` under action `fetch`: the
second call performs no unpack, changes nothing, and returns exactly the
file list produced by the first call's subset `A`. -/
theorem member_cache_keyed_on_existence (archive : Archive) (A B : List String)
    (fname : String) (fs : FS)
    (hA : ∀ m ∈ A, (archive.lookup m).isSome = true)
    (hnodup : A.Nodup)
    (hempty : fs.files.filter (fun kv => underDir (fname ++ ".unzip") kv.1) = []) :
    (extractorCall (some ".unzip") (unzipExtractFile (some A) archive) fname
        .download fs).result =
      .ok (A.map (fun m => pjoin (fname ++ ".unzip") m)) ∧
    extractorCall (some ".unzip") (unzipExtractFile (some B) archive) fname .fetch
        (extractorCall (some ".unzip") (unzipExtractFile (some A) archive) fname
          .download fs).fs =
      ⟨(extractorCall (some ".unzip") (unzipExtractFile (some A) archive) fname
          .download fs).result,
        (extractorCall (some ".unzip") (unzipExtractFile (some A) archive) fname
          .download fs).fs, false⟩ := by
  have hcond : (Action.download = Action.update) ∨ (Action.download = Action.download) ∨
      fs.pathExists (fname ++ ".unzip") = false := Or.inr (Or.inl rfl)
  have hfs1files :
      (if fs.pathExists (fname ++ ".unzip") = true then fs
        else fs.makedirs (fname ++ ".unzip")).files = fs.files := by
    by_cases h : fs.pathExists (fname ++ ".unzip") = true <;> simp [h, FS.makedirs]
  have hempty1 :
      (if fs.pathExists (fname ++ ".unzip") = true then fs
        else fs.makedirs (fname ++ ".unzip")).files.filter
          (fun kv => underDir (fname ++ ".unzip") kv.1) = [] := by
    rw [hfs1files]; exact hempty
  have hc1 : extractorCall (some ".unzip") (unzipExtractFile (some A) archive) fname
      .download fs =
      ⟨.ok (walkFiles (writeMembers archive (fname ++ ".unzip") A
          (if fs.pathExists (fname ++ ".unzip") = true then fs
            else fs.makedirs (fname ++ ".unzip"))) (fname ++ ".unzip")),
        writeMembers archive (fname ++ ".unzip") A
          (if fs.pathExists (fname ++ ".unzip") = true then fs
            else fs.makedirs (fname ++ ".unzip")), true⟩ := by
    rw [extractorCall_unpack ".unzip" _ fname .download fs hcond]
    simp only [unzipExtractFile]
    rw [zipExtractMembers_ok archive (fname ++ ".unzip") A _ hA]
  have hwalk : walkFiles (writeMembers archive (fname ++ ".unzip") A
      (if fs.pathExists (fname ++ ".unzip") = true then fs
        else fs.makedirs (fname ++ ".unzip"))) (fname ++ ".unzip") =
      A.map (fun m => pjoin (fname ++ ".unzip") m) := by
    unfold walkFiles
    rw [filter_writeMembers archive _ A _ hnodup hempty1, List.map_map]
    rfl
  have hpe1 : (if fs.pathExists (fname ++ ".unzip") = true then fs
      else fs.makedirs (fname ++ ".unzip")).pathExists (fname ++ ".unzip") = true := by
    by_cases h : fs.pathExists (fname ++ ".unzip") = true
    · rw [if_pos h]; exact h
    · rw [if_neg h]
      simp [FS.makedirs, FS.pathExists]
  have hpe2 : (writeMembers archive (fname ++ ".unzip") A
      (if fs.pathExists (fname ++ ".unzip") = true then fs
        else fs.makedirs (fname ++ ".unzip"))).pathExists (fname ++ ".unzip") = true :=
    pathExists_writeMembers_mono archive _ A _ _ hpe1
  rw [hc1]
  exact ⟨by rw [hwalk], extractorCall_fetch_hit ".unzip" _ fname _ hpe2⟩

/-- Witness for C9: a concrete second `fetch` call with a different member
subset returns the first call's files without re-extracting. -/
theorem member_cache_keyed_on_existence_witness :
    (extractorCall (some ".unzip")
        (unzipExtractFile (some ["a.txt"]) [("a.txt", [1]), ("b.txt", [2])]) "d.zip"
        .download ⟨[], []⟩).result =
      .ok (["a.txt"].map (fun m => pjoin ("d.zip" ++ ".unzip") m)) ∧
    extractorCall (some ".unzip")
        (unzipExtractFile (some ["b.txt"]) [("a.txt", [1]), ("b.txt", [2])]) "d.zip"
        .fetch
        (extractorCall (some ".unzip")
          (unzipExtractFile (some ["a.txt"]) [("a.txt", [1]), ("b.txt", [2])]) "d.zip"
          .download ⟨[], []⟩).fs =
      ⟨(extractorCall (some ".unzip")
          (unzipExtractFile (some ["a.txt"]) [("a.txt", [1]), ("b.txt", [2])]) "d.zip"
          .download ⟨[], []⟩).result,
        (extractorCall (some ".unzip")
          (unzipExtractFile (some ["a.txt"]) [("a.txt", [1]), ("b.txt", [2])]) "d.zip"
          .download ⟨[], []⟩).fs, false⟩ :=
  member_cache_keyed_on_existence [("a.txt", [1]), ("b.txt", [2])] ["a.txt"]
    ["b.txt"] "d.zip" ⟨[], []⟩ (by decide) (by decide) (by decide)

/-- C8: in member-restricted tar extraction, every member stream handle
that is opened is closed before the next member is processed, on every
exit path, including when the write of the member's bytes fails. -/
theorem tar_member_handles_paired (archive : Archive) (extractDir : String)
    (writeFails : String → Bool) (ms : List String) (fs : FS) :
    paired (tarExtractMembers archive extractDir writeFails ms fs).2 = true := by
  induction ms generalizing fs with
  | nil => rfl
  | cons m rest ih =>
    simp only [tarExtractMembers]
    cases archive.lookup m with
    | none => rfl
    | some content =>
      by_cases hw : writeFails m = true
      · simp [hw, paired]
      · simp only [Bool.not_eq_true] at hw
        simp [hw, paired, ih]

/-- Helper: the chunked copy reproduces the whole stream. -/
theorem copyfileobj_eq (data : Bytes) : copyfileobj data = data := by
  induction data using copyfileobj.induct with
  | case1 => simp only [copyfileobj]
  | case2 x xs ih =>
    simp only [copyfileobj]
    rw [ih]
    exact List.take_append_drop _ _

/-- Helper: a path differs from itself with `".decomp"` appended. -/
theorem ne_append_decomp (fname : String) : fname ≠ fname ++ ".decomp" := by
  intro h
  have hlen := congrArg (fun s => s.data.length) h
  simp [String.data_append] at hlen

/-- Helper: filtering out another key does not change a lookup. -/
theorem lookup_filter_ne {β : Type} (l : List (String × β)) (p q : String)
    (h : q ≠ p) :
    (l.filter (fun kv => !(kv.1 == p))).lookup q = l.lookup q := by
  induction l with
  | nil => rfl
  | cons kv rest ih =>
    obtain ⟨k, b⟩ := kv
    by_cases hkp : k = p
    · subst hkp
      simp [List.filter_cons, List.lookup, beq_eq_false_iff_ne.mpr h, ih]
    · by_cases hqk : q = k
      · subst hqk
        simp [List.filter_cons, List.lookup, hkp]
      · simp [List.filter_cons, List.lookup, hkp,
          beq_eq_false_iff_ne.mpr hqk, ih]

/-- Helper: a write does not change the contents seen at another path. -/
theorem readFile_writeFile_ne (fs : FS) (p : String) (c : Bytes) (q : String)
    (h : q ≠ p) :
    (fs.writeFile p c).readFile q = fs.readFile q := by
  simp only [FS.readFile, FS.writeFile]
  rw [List.lookup_append, lookup_filter_ne fs.files p q h]
  cases hl : fs.files.lookup q with
  | none => simp [List.lookup, beq_eq_false_iff_ne.mpr h]
  | some v => rfl

/-- Helper: a write is visible at the written path. -/
theorem readFile_writeFile_self (fs : FS) (p : String) (c : Bytes) :
    (fs.writeFile p c).readFile p = some c := by
  simp only [FS.readFile, FS.writeFile]
  rw [List.lookup_append, lookup_eq_none_of_keys_ne _ p
    (fun kv hkv => by simpa using (List.mem_filter.mp hkv).2)]
  simp [List.lookup]

/-- Helper: a `fetch` call with the output file present takes the
cache-hit branch of `Decompress.__call__`. -/
theorem decompressCall_fetch_hit (d : Decompress) (mopen : CModule → Bytes → Bytes)
    (fname : String) (fs : FS)
    (hex : fs.pathExists (fname ++ ".decomp") = true) :
    decompressCall d mopen fname .fetch fs = (.ok (fname ++ ".decomp"), fs) := by
  simp only [decompressCall]
  rw [if_neg (by simp [hex])]

/-- Helper: a call with the refresh condition satisfied, a resolved
module and a readable input truncate-creates the output and writes the
chunk-copied decompressed stream there. -/
theorem decompressCall_run (d : Decompress) (mopen : CModule → Bytes → Bytes)
    (fname : String) (action : Action) (fs : FS)
    (hcond : action = .update ∨ action = .download ∨
      fs.pathExists (fname ++ ".decomp") = false)
    (md : CModule) (comp : Bytes)
    (hcm : compressionModule d fname = .ok md)
    (hrf : fs.readFile fname = some comp) :
    decompressCall d mopen fname action fs =
      (.ok (fname ++ ".decomp"),
        (fs.writeFile (fname ++ ".decomp") []).writeFile (fname ++ ".decomp")
          (copyfileobj (mopen md comp))) := by
  have hrf1 : (fs.writeFile (fname ++ ".decomp") []).readFile fname = some comp := by
    rw [readFile_writeFile_ne fs _ [] fname (ne_append_decomp fname)]
    exact hrf
  simp only [decompressCall]
  rw [if_pos hcond]
  simp only [hcm, hrf1]

/-- Helper: an explicit method outside the `modules` table resolves to
the invalid-method error. -/
theorem compressionModule_invalid (method fname : String) (hne : method ≠ "auto")
    (hnot : method ∉ ["lzma", "xz", "gzip", "bzip2"]) :
    compressionModule ⟨method⟩ fname =
      .error (.valueErrorMethod method ["lzma", "xz", "gzip", "bzip2"]) := by
  simp only [compressionModule]
  rw [if_neg hne, lookup_eq_none_of_keys_ne modules method ?_]
  · rfl
  · intro kv hkv hcon
    apply hnot
    rw [← hcon]
    fin_cases hkv <;> decide

/-- C3: the returned path of `Decompress.__call__` is always the input
path with `".decomp"` appended; with action `fetch` and the output file
already present the call returns it with no filesystem change and no
decompression; otherwise the call decompresses the input into that
path. -/
theorem decompress_output_policy (d : Decompress) (mopen : CModule → Bytes → Bytes)
    (fname : String) (action : Action) (fs : FS) :
    (∀ s, (decompressCall d mopen fname action fs).1 = .ok s →
      s = fname ++ ".decomp") ∧
    (action = .fetch → fs.pathExists (fname ++ ".decomp") = true →
      decompressCall d mopen fname action fs = (.ok (fname ++ ".decomp"), fs)) ∧
    ((action = .update ∨ action = .download ∨
        fs.pathExists (fname ++ ".decomp") = false) →
      ∀ md comp, compressionModule d fname = .ok md →
        fs.readFile fname = some comp →
        decompressCall d mopen fname action fs =
          (.ok (fname ++ ".decomp"),
            (fs.writeFile (fname ++ ".decomp") []).writeFile (fname ++ ".decomp")
              (copyfileobj (mopen md comp)))) := by
  refine ⟨?_, ?_, ?_⟩
  · intro s hs
    simp only [decompressCall] at hs
    split at hs
    · split at hs
      · simp at hs
      · split at hs
        · simp at hs
        · exact (Except.ok.inj hs).symm
    · exact (Except.ok.inj hs).symm
  · intro ha hex
    subst ha
    exact decompressCall_fetch_hit d mopen fname fs hex
  · intro hcond md comp hcm hrf
    exact decompressCall_run d mopen fname action fs hcond md comp hcm hrf

/-- Witness for C3: a concrete `fetch` call with the output file present
returns the `".decomp"` path unchanged. -/
theorem decompress_output_policy_witness :
    decompressCall ⟨"gzip"⟩ (fun _ b => b) "v.csv.gz" .fetch
        (FS.mk [] [("v.csv.gz.decomp", [5])]) =
      (.ok ("v.csv.gz" ++ ".decomp"), FS.mk [] [("v.csv.gz.decomp", [5])]) :=
  (decompress_output_policy ⟨"gzip"⟩ (fun _ b => b) "v.csv.gz" .fetch
    (FS.mk [] [("v.csv.gz.decomp", [5])])).2.1 rfl (by decide)

/-- C4: resolution of the compression method: under `"auto"` the input
extension `.xz`, `.gz`, `.bz2` selects lzma, gzip, bzip2 respectively,
and any other extension raises `ValueError` naming it and the recognized
extensions; an explicit method `lzma`, `xz`, `gzip` or `bzip2` resolves
to its module, and any other name raises `ValueError` naming it and the
valid method names. -/
theorem compression_method_resolution (method fname : String) :
    (method = "auto" →
      ((splitext fname).2 = ".xz" →
        compressionModule ⟨method⟩ fname = .ok .lzma) ∧
      ((splitext fname).2 = ".gz" →
        compressionModule ⟨method⟩ fname = .ok .gzip) ∧
      ((splitext fname).2 = ".bz2" →
        compressionModule ⟨method⟩ fname = .ok .bz2) ∧
      ((splitext fname).2 ∉ [".xz", ".gz", ".bz2"] →
        compressionModule ⟨method⟩ fname =
          .error (.valueErrorExt (splitext fname).2 [".xz", ".gz", ".bz2"]))) ∧
    (method ≠ "auto" →
      (method = "lzma" → compressionModule ⟨method⟩ fname = .ok .lzma) ∧
      (method = "xz" → compressionModule ⟨method⟩ fname = .ok .lzma) ∧
      (method = "gzip" → compressionModule ⟨method⟩ fname = .ok .gzip) ∧
      (method = "bzip2" → compressionModule ⟨method⟩ fname = .ok .bz2) ∧
      (method ∉ ["lzma", "xz", "gzip", "bzip2"] →
        compressionModule ⟨method⟩ fname =
          .error (.valueErrorMethod method ["lzma", "xz", "gzip", "bzip2"]))) := by
  constructor
  · intro hauto
    subst hauto
    refine ⟨fun hext => ?_, fun hext => ?_, fun hext => ?_, fun hext => ?_⟩
    · simp only [compressionModule, if_true]
      rw [hext]
      rfl
    · simp only [compressionModule, if_true]
      rw [hext]
      rfl
    · simp only [compressionModule, if_true]
      rw [hext]
      rfl
    · simp only [compressionModule, if_true]
      rw [lookup_eq_none_of_keys_ne _ _ ?_]
      · rfl
      · intro kv hkv hcon
        apply hext
        rw [← hcon]
        fin_cases hkv <;> decide
  · intro hne
    refine ⟨fun h => ?_, fun h => ?_, fun h => ?_, fun h => ?_,
      compressionModule_invalid method fname hne⟩ <;>
    · subst h
      simp only [compressionModule]
      rw [if_neg hne]
      rfl

/-- Witness for C4: `"auto"` on a `.gz` path selects gzip, and an
unrecognized extension is rejected with the recognized set. -/
theorem compression_method_resolution_witness :
    compressionModule ⟨"auto"⟩ "f.gz" = .ok .gzip ∧
    compressionModule ⟨"auto"⟩ "f.foo" =
      .error (.valueErrorExt ".foo" [".xz", ".gz", ".bz2"]) :=
  ⟨((compression_method_resolution "auto" "f.gz").1 rfl).2.1 (by decide),
    by
      have h := ((compression_method_resolution "auto" "f.foo").1 rfl).2.2.2
        (by decide)
      rw [show (splitext "f.foo").2 = ".foo" from by decide] at h
      exact h⟩

/-- Counterexample to C6 as stated: the claimed exclusive open of the
output path would fail when that file already exists, but with the output
file present and action `download` the call succeeds — the `"w+b"` open
truncates the existing file instead of failing. -/
theorem decompress_exclusive_open_cex :
    (FS.mk [] [("v.gz.decomp", [9]), ("v.gz", [1, 2])]).pathExists
        ("v.gz" ++ ".decomp") = true ∧
    (decompressCall ⟨"gzip"⟩ (fun _ b => b) "v.gz" .download
        (FS.mk [] [("v.gz.decomp", [9]), ("v.gz", [1, 2])])).1 =
      .ok ("v.gz" ++ ".decomp") := by
  constructor
  · decide
  · rfl

/-- C6 amended: when the decompress branch runs, the call opens the input
as a compressed read-stream using the resolved method, opens the output
path for binary writing with truncate-or-create semantics (succeeding
even when the file already exists), and copies the entire decompressed
byte stream to it in `copyBufsize`-sized chunks. -/
theorem decompress_copy_semantics (d : Decompress) (mopen : CModule → Bytes → Bytes)
    (fname : String) (action : Action) (fs : FS)
    (hcond : action = .update ∨ action = .download ∨
      fs.pathExists (fname ++ ".decomp") = false)
    (md : CModule) (comp : Bytes)
    (hcm : compressionModule d fname = .ok md)
    (hrf : fs.readFile fname = some comp) :
    (decompressCall d mopen fname action fs).1 = .ok (fname ++ ".decomp") ∧
    (decompressCall d mopen fname action fs).2.readFile (fname ++ ".decomp") =
      some (mopen md comp) := by
  rw [decompressCall_run d mopen fname action fs hcond md comp hcm hrf]
  exact ⟨rfl, by rw [readFile_writeFile_self, copyfileobj_eq]⟩

/-- Witness for C6 amended: a concrete download call overwrites an
existing output file with the full decompressed stream. -/
theorem decompress_copy_semantics_witness :
    (decompressCall ⟨"gzip"⟩ (fun _ b => b) "v.gz" .download
        (FS.mk [] [("v.gz.decomp", [9]), ("v.gz", [1, 2])])).1 =
      .ok ("v.gz" ++ ".decomp") ∧
    (decompressCall ⟨"gzip"⟩ (fun _ b => b) "v.gz" .download
        (FS.mk [] [("v.gz.decomp", [9]), ("v.gz", [1, 2])])).2.readFile
        ("v.gz" ++ ".decomp") = some [1, 2] :=
  decompress_copy_semantics ⟨"gzip"⟩ (fun _ b => b) "v.gz" .download
    (FS.mk [] [("v.gz.decomp", [9]), ("v.gz", [1, 2])]) (Or.inr (Or.inl rfl))
    .gzip [1, 2] rfl (by decide)

/-- C10: `Decompress.__init__` stores any method string unvalidated (in
the model, `Decompress.mk` is total); a `fetch` call with the output file
already present returns it successfully without the method ever being
validated, and the invalid-method error surfaces only on a call that
actually decompresses. -/
theorem decompress_lazy_method_validation (method : String)
    (mopen : CModule → Bytes → Bytes) (fname : String) (fs : FS) :
    (fs.pathExists (fname ++ ".decomp") = true →
      decompressCall ⟨method⟩ mopen fname .fetch fs =
        (.ok (fname ++ ".decomp"), fs)) ∧
    (method ≠ "auto" → method ∉ ["lzma", "xz", "gzip", "bzip2"] →
      ∀ action, (action = .update ∨ action = .download ∨
          fs.pathExists (fname ++ ".decomp") = false) →
        decompressCall ⟨method⟩ mopen fname action fs =
          (.error (.valueErrorMethod method ["lzma", "xz", "gzip", "bzip2"]), fs)) := by
  constructor
  · exact fun hex => decompressCall_fetch_hit ⟨method⟩ mopen fname fs hex
  · intro hne hnot action hcond
    simp only [decompressCall]
    rw [if_pos hcond]
    simp only [compressionModule_invalid method fname hne hnot]

/-- Witness for C10: an unsupported method `"zstd"` is accepted silently
on a cache-hit `fetch`, and rejected only when a download decompresses. -/
theorem decompress_lazy_method_validation_witness :
    decompressCall ⟨"zstd"⟩ (fun _ b => b) "v.gz" .fetch
        (FS.mk [] [("v.gz.decomp", [9])]) =
      (.ok ("v.gz" ++ ".decomp"), FS.mk [] [("v.gz.decomp", [9])]) ∧
    decompressCall ⟨"zstd"⟩ (fun _ b => b) "v.gz" .download
        (FS.mk [] [("v.gz.decomp", [9])]) =
      (.error (.valueErrorMethod "zstd" ["lzma", "xz", "gzip", "bzip2"]),
        FS.mk [] [("v.gz.decomp", [9])]) :=
  ⟨(decompress_lazy_method_validation "zstd" (fun _ b => b) "v.gz"
      (FS.mk [] [("v.gz.decomp", [9])])).1 (by decide),
    (decompress_lazy_method_validation "zstd" (fun _ b => b) "v.gz"
      (FS.mk [] [("v.gz.decomp", [9])])).2 (by decide) (by decide) .download
      (Or.inr (Or.inl rfl))⟩

end Pooch
